import Mathlib

/-!
Verification of `merge-config.py`: a hierarchical JSON merge engine
(`deep_merge`), dotted-path accessors (`get_nested`, `set_nested`) and the
thin driver (`main`) that synchronizes a fixed set of dotted paths from a
source JSON document into a target JSON document.

The Python values are shallowly embedded as the inductive type `Json`;
Python `dict`s become ordered association lists (insertion order is
observable in Python and preserved by every operation modelled here),
`list`s become `List Json`, and the scalars become the remaining
constructors.  Python's `None` — which doubles as the JSON `null` and as
the absent-marker returned by `get_nested` — is `Json.null`.
Exceptions (the `TypeError` reachable in the driver's ensure-parent loop,
and `sys.exit`) are modelled with `Except` / explicit exit codes.
-/

namespace MergeConfig

/-- A JSON-like value, as produced by Python's `json.load`:
`dict`s are ordered association lists, numbers are modelled as integers
(no claim here depends on numeric subtleties). -/
inductive Json where
  | null
  | bool (b : Bool)
  | num (n : Int)
  | str (s : String)
  | arr (elems : List Json)
  | obj (members : List (String × Json))
deriving Inhabited

/-- Python `d.get(k)` / `k in d` on a dict: first binding of `k`, if any. -/
def lookupEntry (k : String) : List (String × Json) → Option Json
  | [] => none
  | (k', v) :: rest => if k' = k then some v else lookupEntry k rest

/-- Python `d[k] = v` when `k in d`: replace the binding in place,
keeping its position. -/
def setEntry (k : String) (v : Json) : List (String × Json) → List (String × Json)
  | [] => []
  | (k', v') :: rest => if k' = k then (k', v) :: rest else (k', v') :: setEntry k v rest

/-- Python `d[k] = v` on a dict: replace in place if the key is present,
append a new binding otherwise. -/
def upsertEntry (k : String) (v : Json) (d : List (String × Json)) : List (String × Json) :=
  match lookupEntry k d with
  | some _ => setEntry k v d
  | none => d ++ [(k, v)]

/-- `Json.isNull`: Python's `x is None` on a value coming from `json` data. -/
def Json.isNull : Json → Bool
  | .null => true
  | _ => false

/-- `Json.isObj`: Python's `isinstance(x, dict)`. -/
def Json.isObj : Json → Bool
  | .obj _ => true
  | _ => false

/-- Splitter for `path.split(".")` on the character list: `"a.b"` becomes
`["a", "b"]`, the empty string becomes `[""]`, and consecutive dots give
empty segments, exactly as in Python. -/
def splitDots : List Char → List (List Char)
  | [] => [[]]
  | c :: rest =>
    match splitDots rest with
    | [] => [[]]
    | g :: gs => if c = '.' then [] :: g :: gs else (c :: g) :: gs

/-- Python `path.split(".")`. -/
def splitPath (path : String) : List String :=
  (splitDots path.toList).map (fun cs => String.mk cs)

/-- The loop body of `get_nested`, running over the already-split key list:

    for key in keys:
        if obj is None or not isinstance(obj, dict):
            return None
        obj = obj.get(key)
    return obj

`None` (both the stored JSON `null` and the dict-miss result of `.get`)
is `Json.null`. -/
def getKeys : Json → List String → Json
  | t, [] => t
  | .obj d, k :: ks => getKeys ((lookupEntry k d).getD .null) ks
  | _, _ :: _ => .null

/-- `get_nested(obj, path)` from `merge-config.py` (lines 49–56). -/
def get_nested (t : Json) (path : String) : Json :=
  getKeys t (splitPath path)

/-- The loop of `set_nested`, over the split key list, on a dict's
members:

    for key in keys[:-1]:
        if key not in obj or not isinstance(obj[key], dict):
            obj[key] = {}
        obj = obj[key]
    obj[keys[-1]] = value

The `[]` case is unreachable from `set_nested` (a split is never empty). -/
def setKeys (d : List (String × Json)) : List String → Json → List (String × Json)
  | [], _ => d
  | [k], v => upsertEntry k v d
  | k :: ks, v =>
    let c : List (String × Json) :=
      match lookupEntry k d with
      | some (.obj c) => c
      | _ => []
    upsertEntry k (.obj (setKeys c ks v)) d

/-- `set_nested(obj, path, value)` from `merge-config.py` (lines 59–66),
on a dict's members (the function's contract: `obj` is a dict). -/
def set_nested (d : List (String × Json)) (path : String) (v : Json) :
    List (String × Json) :=
  setKeys d (splitPath path) v

mutual

/-- The per-key update of `deep_merge` when the key is present in both
dicts (lines 36–42):

    if isinstance(target[key], dict) and isinstance(source[key], dict):
        target[key] = deep_merge(target[key], source[key], ...)
    elif isinstance(target[key], list) and isinstance(source[key], list):
        target[key] = source[key]          # lists replace entirely
    else:
        target[key] = source[key]

`deep_merge` on two dicts is `.obj (mergeEntries ..)`, inlined here so the
mutual recursion decreases on the source value alone. -/
def mergeValue (tv sv : Json) : Json :=
  match tv, sv with
  | .obj a, .obj b => .obj (mergeEntries a b)
  | .arr _, .arr _ => sv
  | _, _ => sv
termination_by sizeOf sv
decreasing_by all_goals simp_wf

/-- The `for key in source:` loop of `deep_merge` (lines 34–44), acting on
the two dicts' members.  Present keys are updated in place via
`mergeValue`; absent keys are appended (`target[key] = source[key]` on a
missing key appends in insertion order). -/
def mergeEntries (t : List (String × Json)) (s : List (String × Json)) :
    List (String × Json) :=
  match s with
  | [] => t
  | (k, sv) :: rest =>
    mergeEntries
      (match lookupEntry k t with
       | some tv => setEntry k (mergeValue tv sv) t
       | none => t ++ [(k, sv)])
      rest
termination_by sizeOf s
decreasing_by all_goals simp_wf <;> simp_arith

end

/-- `deep_merge(target, source)` from `merge-config.py` (lines 31–46):
merge the members when both sides are dicts, otherwise return `source`. -/
def deep_merge (t s : Json) : Json :=
  match t, s with
  | .obj a, .obj b => .obj (mergeEntries a b)
  | _, _ => s

/-- One step of the source loop, for stating lemmas. -/
def mergeStep (t : List (String × Json)) (k : String) (sv : Json) :
    List (String × Json) :=
  match lookupEntry k t with
  | some tv => setEntry k (mergeValue tv sv) t
  | none => t ++ [(k, sv)]

mutual

/-- Python `==` on two JSON values: dict comparison ignores insertion
order (equal key sets with equal values), list comparison is pointwise. -/
def pyEq (x y : Json) : Bool :=
  match x, y with
  | .null, .null => true
  | .bool a, .bool b => a == b
  | .num a, .num b => a == b
  | .str a, .str b => a == b
  | .arr xs, .arr ys => pyEqArr xs ys
  | .obj a, .obj b => a.length == b.length && pyEqEntries a b
  | _, _ => false
termination_by sizeOf x
decreasing_by all_goals simp_wf

/-- Pointwise Python `==` on two lists. -/
def pyEqArr (xs ys : List Json) : Bool :=
  match xs, ys with
  | [], [] => true
  | x :: xs, y :: ys => pyEq x y && pyEqArr xs ys
  | _, _ => false
termination_by sizeOf xs
decreasing_by all_goals simp_wf <;> omega

/-- Every binding of the first dict is present (by key) in the second
with a Python-equal value. -/
def pyEqEntries (a b : List (String × Json)) : Bool :=
  match a with
  | [] => true
  | (k, v) :: rest =>
    (match lookupEntry k b with
     | some w => pyEq v w
     | none => false) && pyEqEntries rest b
termination_by sizeOf a
decreasing_by all_goals simp_wf <;> simp_arith

end

mutual

/-- A `Json` value is well-formed when every object in it binds each key
at most once — exactly the values Python's `json.load` can produce
(a Python `dict` cannot hold a key twice). -/
def wf (t : Json) : Bool :=
  match t with
  | .obj d => wfEntries d
  | .arr xs => wfArr xs
  | _ => true
termination_by sizeOf t
decreasing_by all_goals simp_wf

/-- Well-formedness of a dict's members: keys pairwise distinct, values
well-formed. -/
def wfEntries (d : List (String × Json)) : Bool :=
  match d with
  | [] => true
  | (k, v) :: rest => (lookupEntry k rest).isNone && wf v && wfEntries rest
termination_by sizeOf d
decreasing_by all_goals simp_wf <;> simp_arith

/-- Well-formedness of a list's elements. -/
def wfArr (xs : List Json) : Bool :=
  match xs with
  | [] => true
  | x :: xs => wf x && wfArr xs
termination_by sizeOf xs
decreasing_by all_goals simp_wf <;> omega

end

/-- The ensure-parent loop inlined in `main` (lines 149–154):

    current = target
    for key in parent_keys:
        if key not in current:
            current[key] = {}
        current = current[key]

It inserts `{}` at a *missing* key but descends into a present value
unchecked; reaching a non-dict with keys still to process raises a
`TypeError` (`in` / item assignment on a non-dict), modelled as
`.error ()`.  On success it returns the updated whole tree. -/
def ensureParent : Json → List String → Except Unit Json
  | t, [] => .ok t
  | .obj d, k :: ks =>
    match ensureParent ((lookupEntry k d).getD (.obj [])) ks with
    | .ok c' => .ok (.obj (upsertEntry k c' d))
    | .error e => .error e
  | _, _ :: _ => .error ()

/-- `set_nested` as called from the driver, on a whole tree: Python's
`set_nested` immediately indexes `obj`, so a non-dict argument raises a
`TypeError`. -/
def setTree : Json → List String → Json → Except Unit Json
  | .obj d, ks, v => .ok (.obj (setKeys d ks v))
  | _, _, _ => .error ()

/-- The driver's write step for one path (lines 148–156): ensure the
parent keys exist, then `set_nested(target, tgt_path, deep-copied value)`
(the `json.loads(json.dumps(..))` round-trip is the identity on the
modelled values). `ks` is the split target path. -/
def writeStep (t : Json) (ks : List String) (v : Json) : Except Unit Json :=
  match ensureParent t ks.dropLast with
  | .ok t' => setTree t' ks v
  | .error e => .error e

/-- Processing of one `(src_path, tgt_path)` pair in `main`'s loop
(lines 133–159), apply mode: skip when the source value is `None`,
skip when target and source values are Python-equal, otherwise write. -/
def processPair (source tgt : Json) (p : String × String) : Except Unit Json :=
  let srcVal := get_nested source p.1
  if srcVal.isNull then .ok tgt
  else
    let tgtVal := get_nested tgt p.2
    if pyEq tgtVal srcVal then .ok tgt
    else writeStep tgt (splitPath p.2) srcVal

/-- The whole per-path loop over the selected pairs. -/
def runPairs (source : Json) : Json → List (String × String) → Except Unit Json
  | tgt, [] => .ok tgt
  | tgt, p :: rest =>
    match processPair source tgt p with
    | .ok t' => runPairs source t' rest
    | .error e => .error e

/-- The three merge scopes of the driver. -/
inductive Mode where
  | full
  | modelsOnly
  | agentsOnly

/-- `sections_to_merge` (lines 108–123). -/
def sectionsToMerge : Mode → List (String × String)
  | .modelsOnly => [("models.providers.ollama", "models.providers.ollama")]
  | .agentsOnly =>
    [("agents.defaults.model", "agents.defaults.model"),
     ("agents.defaults.models", "agents.defaults.models")]
  | .full =>
    [("models.providers.ollama", "models.providers.ollama"),
     ("agents.defaults.model", "agents.defaults.model"),
     ("agents.defaults.models", "agents.defaults.models")]

/-- Observable outcome of one invocation: the process exit status and
the contents written to the target file (`none` = the file's bytes were
not touched). -/
structure RunOutcome where
  exitCode : Nat
  written : Option Json

/-- A file as the driver sees it: `none` = missing, `some none` =
present but not valid JSON, `some (some t)` = parses to `t`. -/
abbrev FileState := Option (Option Json)

/-- `main` (lines 91–177), minus argument parsing and backup copying:
missing file → `sys.exit(1)`; unparseable file → uncaught
`JSONDecodeError`, interpreter exits 1; dry run → nothing written,
`sys.exit(0)`; apply run → per-path loop, a `TypeError` in the write
step kills the process (exit 1, nothing written), otherwise the merged
target is written and the process exits 0. -/
def mainModel (mode : Mode) (dryRun : Bool) (srcFile tgtFile : FileState) :
    RunOutcome :=
  match srcFile with
  | none => ⟨1, none⟩
  | some srcParse =>
    match tgtFile with
    | none => ⟨1, none⟩
    | some tgtParse =>
      match srcParse with
      | none => ⟨1, none⟩
      | some source =>
        match tgtParse with
        | none => ⟨1, none⟩
        | some target =>
          if dryRun then ⟨0, none⟩
          else
            match runPairs source target (sectionsToMerge mode) with
            | .ok t' => ⟨0, some t'⟩
            | .error _ => ⟨1, none⟩

/-- Top-level binding of a key in a tree (for frame statements). -/
def topLookup (t : Json) (k : String) : Option Json :=
  match t with
  | .obj d => lookupEntry k d
  | _ => none

/-- The spec's description of `get`, written from its words: descending
one segment at a time, return the absent-marker if the tree is the
absent-marker itself, or it becomes non-mapping before the path is
exhausted, or a segment key is not present; otherwise the value at the
final segment. -/
def getSpecKeys : Json → List String → Json
  | .null, _ => .null
  | t, [] => t
  | .obj d, k :: ks =>
    match lookupEntry k d with
    | some v => getSpecKeys v ks
    | none => .null
  | _, _ :: _ => .null

/-- The spec's description of `set`, written from its words: walk all
segments except the last (here: the `parents` list), creating an empty
mapping at any segment that is missing or whose value is not a mapping,
then assign `v` at the final segment `last`. -/
def setSpecWalk (d : List (String × Json)) : List String → String → Json → List (String × Json)
  | [], last, v => upsertEntry last v d
  | k :: ps, last, v =>
    upsertEntry k
      (.obj (setSpecWalk
        (match lookupEntry k d with
         | some (.obj c) => c
         | _ => [])
        ps last v))
      d

/-- Strict presence: the value actually stored at a key path, `none` when
any segment is missing or hits a non-mapping (unlike `getKeys`, a stored
JSON `null` is `some .null`, distinguishable from absence). -/
def storedAt : Json → List String → Option Json
  | t, [] => some t
  | .obj d, k :: ks =>
    match lookupEntry k d with
    | some v => storedAt v ks
    | none => none
  | _, _ :: _ => none

/-- Success predicate of the ensure-parent loop: descending through the
keys, every present value hit with keys still to process is a mapping
(a missing key starts a chain of fresh `{}`s and can no longer fail). -/
def ensureOk : Json → List String → Bool
  | _, [] => true
  | .obj d, k :: ks =>
    match lookupEntry k d with
    | some v => ensureOk v ks
    | none => true
  | _, _ :: _ => false

/-- Keys pairwise distinct (what Python guarantees of any `dict`). -/
def noDupKeys : List (String × Json) → Bool
  | [] => true
  | (k, _) :: rest => (lookupEntry k rest).isNone && noDupKeys rest

/-- The write step relative to a subtree `c` of the target: ensure the
parent keys inside `c`, then run `set_nested`'s walk on the result's
members (a non-mapping result — only possible when `ks.dropLast = []` —
is replaced by `{}` by the walk of the *enclosing* call).  `writeStep`
at an object root agrees with it (`writeStep_eq_writeChild`), and it
unfolds through one path segment (`writeChild_cons`), which is what the
frame lemmas below recurse on. -/
def writeChild (c : Json) (ks : List String) (v : Json) : Except Unit Json :=
  match ensureParent c ks.dropLast with
  | .ok c' =>
    .ok (.obj (setKeys
      (match c' with
       | .obj e => e
       | _ => [])
      ks v))
  | .error e => .error e

/-- `Except` success as a Bool (for exit-code and safety statements). -/
def okB : Except Unit Json → Bool
  | .ok _ => true
  | .error _ => false

/-! ## Basic lemmas -/

/-- `splitDots` never returns the empty list (Python's `split` always
yields at least one segment). -/
theorem splitDots_ne_nil (cs : List Char) : splitDots cs ≠ [] := by
  cases cs with
  | nil => simp [splitDots]
  | cons c rest =>
    simp only [splitDots]
    cases h : splitDots rest with
    | nil => simp
    | cons g gs =>
      by_cases hc : c = '.' <;> simp [hc]

theorem splitPath_ne_nil (path : String) : splitPath path ≠ [] := by
  simp [splitPath, splitDots_ne_nil]

theorem mergeEntries_nil (t : List (String × Json)) : mergeEntries t [] = t := by
  simp [mergeEntries]

theorem mergeEntries_cons (t : List (String × Json)) (k : String) (sv : Json)
    (rest : List (String × Json)) :
    mergeEntries t ((k, sv) :: rest) = mergeEntries (mergeStep t k sv) rest := by
  rw [mergeEntries, mergeStep]


theorem lookup_set_ne (k k' : String) (v : Json) (d : List (String × Json))
    (h : k' ≠ k) : lookupEntry k' (setEntry k v d) = lookupEntry k' d := by
  induction d with
  | nil => simp [setEntry]
  | cons e rest ih =>
    obtain ⟨k0, v0⟩ := e
    by_cases h0 : k0 = k
    · subst h0
      have hk : ¬(k0 = k') := fun h' => h h'.symm
      simp [setEntry, lookupEntry, hk]
    · simp [setEntry, lookupEntry, h0]
      split <;> simp [ih]

theorem lookup_set_self (k : String) (v w : Json) (d : List (String × Json))
    (h : lookupEntry k d = some w) : lookupEntry k (setEntry k v d) = some v := by
  induction d with
  | nil => simp [lookupEntry] at h
  | cons e rest ih =>
    obtain ⟨k0, v0⟩ := e
    by_cases h0 : k0 = k
    · simp [setEntry, lookupEntry, h0]
    · simp [lookupEntry, h0] at h
      simp [setEntry, lookupEntry, h0, ih h]

theorem setEntry_id (k : String) (v : Json) (d : List (String × Json))
    (h : lookupEntry k d = some v) : setEntry k v d = d := by
  induction d with
  | nil => simp [lookupEntry] at h
  | cons e rest ih =>
    obtain ⟨k0, v0⟩ := e
    by_cases h0 : k0 = k
    · simp [lookupEntry, h0] at h
      simp [setEntry, h0, h]
    · simp [lookupEntry, h0] at h
      simp [setEntry, h0, ih h]

theorem lookup_append_self (k : String) (v : Json) (d : List (String × Json))
    (h : lookupEntry k d = none) : lookupEntry k (d ++ [(k, v)]) = some v := by
  induction d with
  | nil => simp [lookupEntry]
  | cons e rest ih =>
    obtain ⟨k0, v0⟩ := e
    by_cases h0 : k0 = k
    · simp [lookupEntry, h0] at h
    · simp [lookupEntry, h0] at h ⊢
      exact ih h

theorem lookup_append_ne (k k' : String) (v : Json) (d : List (String × Json))
    (h : k' ≠ k) : lookupEntry k' (d ++ [(k, v)]) = lookupEntry k' d := by
  induction d with
  | nil =>
    have hk : ¬(k = k') := fun h' => h h'.symm
    simp [lookupEntry, hk]
  | cons e rest ih =>
    obtain ⟨k0, v0⟩ := e
    simp [lookupEntry]
    split <;> simp [ih]

theorem lookup_upsert_self (k : String) (v : Json) (d : List (String × Json)) :
    lookupEntry k (upsertEntry k v d) = some v := by
  unfold upsertEntry
  cases h : lookupEntry k d with
  | some w => exact lookup_set_self k v w d h
  | none => exact lookup_append_self k v d h

theorem lookup_upsert_ne (k k' : String) (v : Json) (d : List (String × Json))
    (h : k' ≠ k) : lookupEntry k' (upsertEntry k v d) = lookupEntry k' d := by
  unfold upsertEntry
  cases lookupEntry k d with
  | some w => exact lookup_set_ne k k' v d h
  | none => exact lookup_append_ne k k' v d h

theorem setEntry_setEntry (k : String) (x y : Json) (d : List (String × Json)) :
    setEntry k x (setEntry k y d) = setEntry k x d := by
  induction d with
  | nil => simp [setEntry]
  | cons e rest ih =>
    obtain ⟨k0, v0⟩ := e
    by_cases h0 : k0 = k <;> simp [setEntry, h0, ih]

theorem setEntry_append (k : String) (x y : Json) (d : List (String × Json))
    (h : lookupEntry k d = none) :
    setEntry k x (d ++ [(k, y)]) = d ++ [(k, x)] := by
  induction d with
  | nil => simp [setEntry]
  | cons e rest ih =>
    obtain ⟨k0, v0⟩ := e
    by_cases h0 : k0 = k
    · simp [lookupEntry, h0] at h
    · simp [lookupEntry, h0] at h
      simp [setEntry, h0, ih h]

theorem upsert_upsert (k : String) (x y : Json) (d : List (String × Json)) :
    upsertEntry k x (upsertEntry k y d) = upsertEntry k x d := by
  unfold upsertEntry
  cases h : lookupEntry k d with
  | some w =>
    rw [lookup_set_self k y w d h]
    exact setEntry_setEntry k x y d
  | none =>
    rw [lookup_append_self k y d h]
    exact setEntry_append k x y d h

/-! ## The merge loop, key by key -/

theorem lookup_mergeStep_ne (t : List (String × Json)) (k k' : String) (sv : Json)
    (h : k' ≠ k) : lookupEntry k' (mergeStep t k sv) = lookupEntry k' t := by
  unfold mergeStep
  cases lookupEntry k t with
  | some tv => exact lookup_set_ne k k' (mergeValue tv sv) t h
  | none => exact lookup_append_ne k k' sv t h

theorem lookup_mergeStep_self (t : List (String × Json)) (k : String) (sv : Json) :
    lookupEntry k (mergeStep t k sv) =
      some (match lookupEntry k t with
            | some tv => mergeValue tv sv
            | none => sv) := by
  unfold mergeStep
  cases h : lookupEntry k t with
  | some tv => exact lookup_set_self k (mergeValue tv sv) tv t h
  | none => exact lookup_append_self k sv t h

/-- A key absent from the source is untouched by the merge loop:
its binding (or absence) in the result is the one from the target. -/
theorem lookup_mergeEntries_notin (s : List (String × Json)) :
    ∀ t k, lookupEntry k s = none →
      lookupEntry k (mergeEntries t s) = lookupEntry k t := by
  induction s with
  | nil => intro t k _; rw [mergeEntries_nil]
  | cons e rest ih =>
    obtain ⟨k0, sv0⟩ := e
    intro t k h
    by_cases h0 : k0 = k
    · simp [lookupEntry, h0] at h
    · simp [lookupEntry, h0] at h
      rw [mergeEntries_cons, ih _ k h, lookup_mergeStep_ne _ _ _ _ (fun h' => h0 h'.symm)]

/-- A key present in the (duplicate-free) source ends up bound to its
source value, merged against the target's value when the target had
the key. -/
theorem lookup_mergeEntries_of_mem (s : List (String × Json)) :
    ∀ t k sv, noDupKeys s = true → lookupEntry k s = some sv →
      lookupEntry k (mergeEntries t s) =
        some (match lookupEntry k t with
              | some tv => mergeValue tv sv
              | none => sv) := by
  induction s with
  | nil => intro t k sv _ h; simp [lookupEntry] at h
  | cons e rest ih =>
    obtain ⟨k0, sv0⟩ := e
    intro t k sv hnd h
    simp [noDupKeys, Option.isNone_iff_eq_none] at hnd
    obtain ⟨hk0, hrest⟩ := hnd
    by_cases h0 : k0 = k
    · subst h0
      simp [lookupEntry] at h
      subst h
      rw [mergeEntries_cons, lookup_mergeEntries_notin rest _ _ hk0,
        lookup_mergeStep_self]
    · simp [lookupEntry, h0] at h
      rw [mergeEntries_cons, ih _ k sv hrest h,
        lookup_mergeStep_ne _ _ _ _ (fun h' => h0 h'.symm)]

/-! ## `get_nested` and `set_nested` -/

theorem getKeys_null (ks : List String) : getKeys .null ks = .null := by
  cases ks <;> rfl

theorem getKeys_eq_getSpec (ks : List String) :
    ∀ t : Json, getKeys t ks = getSpecKeys t ks := by
  induction ks with
  | nil => intro t; cases t <;> rfl
  | cons k ks ih =>
    intro t
    cases t with
    | obj d =>
      cases h : lookupEntry k d with
      | some v => simp [getKeys, getSpecKeys, h, ih]
      | none => simp [getKeys, getSpecKeys, h, getKeys_null]
    | null => rfl
    | bool b => rfl
    | num n => rfl
    | str s => rfl
    | arr xs => rfl

theorem getKeys_setKeys :
    ∀ (ks : List String) (d : List (String × Json)) (v : Json), ks ≠ [] →
      getKeys (.obj (setKeys d ks v)) ks = v := by
  intro ks
  induction ks with
  | nil => intro d v h; exact absurd rfl h
  | cons k ks ih =>
    intro d v _
    cases ks with
    | nil => simp [setKeys, getKeys, lookup_upsert_self]
    | cons k2 ks2 =>
      simp only [setKeys, getKeys, lookup_upsert_self, Option.getD_some]
      exact ih _ v (by simp)

theorem setKeys_eq_spec :
    ∀ (ks : List String) (d : List (String × Json)) (v : Json), ks ≠ [] →
      setKeys d ks v = setSpecWalk d ks.dropLast ((ks.getLast?).getD "") v := by
  intro ks
  induction ks with
  | nil => intro d v h; exact absurd rfl h
  | cons k ks ih =>
    intro d v _
    cases ks with
    | nil => simp [setKeys, setSpecWalk]
    | cons k2 ks2 =>
      have h2 : (k2 :: ks2) ≠ [] := by simp
      have hdl : (k :: k2 :: ks2).dropLast = k :: (k2 :: ks2).dropLast := rfl
      have hgl : (k :: k2 :: ks2).getLast? = (k2 :: ks2).getLast? := by
        simp [List.getLast?_cons_cons]
      rw [hdl, hgl]
      simp only [setKeys, setSpecWalk]
      rw [ih _ v h2]

theorem storedAt_null_getKeys :
    ∀ (ks : List String) (t : Json), storedAt t ks = some .null →
      getKeys t ks = .null := by
  intro ks
  induction ks with
  | nil =>
    intro t h
    simp [storedAt] at h
    simp [getKeys, h]
  | cons k ks ih =>
    intro t h
    cases t with
    | obj d =>
      cases hl : lookupEntry k d with
      | some v =>
        simp [storedAt, hl] at h
        simp [getKeys, hl]
        exact ih v h
      | none => simp [storedAt, hl] at h
    | null => simp [storedAt] at h
    | bool b => simp [storedAt] at h
    | num n => simp [storedAt] at h
    | str s => simp [storedAt] at h
    | arr xs => simp [storedAt] at h

theorem mergeValue_eq_spec (tv sv : Json) :
    mergeValue tv sv =
      match tv, sv with
      | .obj _, .obj _ => deep_merge tv sv
      | .arr _, .arr _ => sv
      | _, _ => sv := by
  cases tv <;> cases sv <;> simp [mergeValue, deep_merge]

/-! ## The ensure-parent loop -/

theorem ensure_empty_ok : ∀ ks : List String, okB (ensureParent (.obj []) ks) = true := by
  intro ks
  induction ks with
  | nil => rfl
  | cons k ks ih =>
    simp only [ensureParent, lookupEntry, Option.getD_none]
    cases h : ensureParent (.obj []) ks with
    | ok c => simp [okB]
    | error e => rw [h] at ih; simp [okB] at ih

theorem ensure_isOk : ∀ (ks : List String) (t : Json),
    okB (ensureParent t ks) = ensureOk t ks := by
  intro ks
  induction ks with
  | nil => intro t; cases t <;> rfl
  | cons k ks ih =>
    intro t
    cases t with
    | obj d =>
      cases hl : lookupEntry k d with
      | some v =>
        simp only [ensureParent, ensureOk, hl, Option.getD_some]
        have hv := ih v
        cases h : ensureParent v ks with
        | ok c => rw [h] at hv; simpa [okB] using hv.symm
        | error e => rw [h] at hv; simpa [okB] using hv.symm
      | none =>
        simp only [ensureParent, ensureOk, hl, Option.getD_none]
        have he := ensure_empty_ok ks
        cases h : ensureParent (.obj []) ks with
        | ok c => simp [okB]
        | error e => rw [h] at he; simp [okB] at he
    | null => rfl
    | bool b => rfl
    | num n => rfl
    | str s => rfl
    | arr xs => rfl

theorem ensure_obj (d : List (String × Json)) (ks : List String) (c' : Json)
    (h : ensureParent (.obj d) ks = .ok c') : c'.isObj = true := by
  cases ks with
  | nil =>
    simp [ensureParent] at h
    rw [← h]; rfl
  | cons k ks =>
    simp only [ensureParent] at h
    cases hm : ensureParent ((lookupEntry k d).getD (.obj [])) ks with
    | ok c2 =>
      rw [hm] at h
      simp at h
      rw [← h]; rfl
    | error e => rw [hm] at h; simp at h

/-- When the target already binds `k` to a `sv`-absorbed value, one
merge step is the identity. -/
theorem mergeStep_id (t : List (String × Json)) (k : String) (sv w : Json)
    (hl : lookupEntry k t = some w) (hm : mergeValue w sv = w) :
    mergeStep t k sv = t := by
  unfold mergeStep
  rw [hl]
  show setEntry k (mergeValue w sv) t = t
  rw [hm]
  exact setEntry_id k w t hl

/-! ## Size and well-formedness helpers -/

theorem sizeOf_val_lt_cons (k : String) (sv : Json) (rest : List (String × Json)) :
    sizeOf sv < sizeOf ((k, sv) :: rest) := by
  simp
  omega

theorem sizeOf_rest_lt_cons (k : String) (sv : Json) (rest : List (String × Json)) :
    sizeOf rest < sizeOf ((k, sv) :: rest) := by
  simp

theorem sizeOf_members_lt_obj (b : List (String × Json)) :
    sizeOf b < sizeOf (Json.obj b) := by
  simp

theorem wfEntries_cons_iff (k : String) (sv : Json) (rest : List (String × Json)) :
    wfEntries ((k, sv) :: rest) = true ↔
      lookupEntry k rest = none ∧ wf sv = true ∧ wfEntries rest = true := by
  simp [wfEntries, Bool.and_eq_true, Option.isNone_iff_eq_none, and_assoc]

theorem wf_obj_iff (b : List (String × Json)) :
    wf (.obj b) = true ↔ wfEntries b = true := by
  simp [wf]

/-! ## Idempotence of the merge -/

/-- Combined strong induction for merge idempotence, on the size of the
source side: value-level idempotence of `mergeValue`, self-absorption of
a source already contained in the target, and idempotence of the merge
loop.  All three need the source's dicts to be duplicate-free (`wf`) —
Python dicts always are, but e.g. the member list `[(k, 1), (k, 2)]`
would break them. -/
theorem mergeIdem_main : ∀ n : Nat,
    (∀ v : Json, sizeOf v ≤ n → wf v = true →
      (∀ tv, mergeValue (mergeValue tv v) v = mergeValue tv v) ∧ mergeValue v v = v) ∧
    (∀ s : List (String × Json), sizeOf s ≤ n → wfEntries s = true →
      ∀ t, (∀ j rv, lookupEntry j s = some rv → lookupEntry j t = some rv) →
        mergeEntries t s = t) ∧
    (∀ s : List (String × Json), sizeOf s ≤ n → wfEntries s = true →
      ∀ t, mergeEntries (mergeEntries t s) s = mergeEntries t s) := by
  intro n
  induction n using Nat.strong_induction_on with
  | _ n ih =>
    refine ⟨?_, ?_, ?_⟩
    · -- value-level idempotence
      intro v hsz hwf
      cases v with
      | null => exact ⟨fun tv => by cases tv <;> simp [mergeValue], by simp [mergeValue]⟩
      | bool b => exact ⟨fun tv => by cases tv <;> simp [mergeValue], by simp [mergeValue]⟩
      | num m => exact ⟨fun tv => by cases tv <;> simp [mergeValue], by simp [mergeValue]⟩
      | str s => exact ⟨fun tv => by cases tv <;> simp [mergeValue], by simp [mergeValue]⟩
      | arr xs => exact ⟨fun tv => by cases tv <;> simp [mergeValue], by simp [mergeValue]⟩
      | obj b =>
        have hwfb : wfEntries b = true := (wf_obj_iff b).mp hwf
        have hszb : sizeOf b < n :=
          Nat.lt_of_lt_of_le (sizeOf_members_lt_obj b) hsz
        have hself : mergeEntries b b = b :=
          (ih (sizeOf b) hszb).2.1 b le_rfl hwfb b (fun _ _ h => h)
        refine ⟨?_, by simp [mergeValue, hself]⟩
        intro tv
        cases tv with
        | obj a =>
          simp only [mergeValue]
          exact congrArg Json.obj ((ih (sizeOf b) hszb).2.2 b le_rfl hwfb a)
        | null => simp [mergeValue, hself]
        | bool c => simp [mergeValue, hself]
        | num m => simp [mergeValue, hself]
        | str s => simp [mergeValue, hself]
        | arr xs => simp [mergeValue, hself]
    · -- self-absorption
      intro s hsz hwf t hlk
      cases s with
      | nil => exact mergeEntries_nil t
      | cons e rest =>
        obtain ⟨k, sv⟩ := e
        obtain ⟨hknone, hwfsv, hwfrest⟩ := (wfEntries_cons_iff k sv rest).mp hwf
        have hszsv : sizeOf sv < n :=
          Nat.lt_of_lt_of_le (sizeOf_val_lt_cons k sv rest) hsz
        have hszrest : sizeOf rest < n :=
          Nat.lt_of_lt_of_le (sizeOf_rest_lt_cons k sv rest) hsz
        have hlkk : lookupEntry k t = some sv := hlk k sv (by simp [lookupEntry])
        have hmv : mergeValue sv sv = sv :=
          ((ih (sizeOf sv) hszsv).1 sv le_rfl hwfsv).2
        have hstep : mergeStep t k sv = t := mergeStep_id t k sv sv hlkk hmv
        rw [mergeEntries_cons, hstep]
        refine (ih (sizeOf rest) hszrest).2.1 rest le_rfl hwfrest t ?_
        intro j rv hj
        apply hlk
        by_cases hjk : k = j
        · subst hjk
          rw [hknone] at hj
          exact absurd hj (by simp)
        · simpa [lookupEntry, hjk] using hj
    · -- idempotence of the loop
      intro s hsz hwf t
      cases s with
      | nil => simp [mergeEntries_nil]
      | cons e rest =>
        obtain ⟨k, sv⟩ := e
        obtain ⟨hknone, hwfsv, hwfrest⟩ := (wfEntries_cons_iff k sv rest).mp hwf
        have hszsv : sizeOf sv < n :=
          Nat.lt_of_lt_of_le (sizeOf_val_lt_cons k sv rest) hsz
        have hszrest : sizeOf rest < n :=
          Nat.lt_of_lt_of_le (sizeOf_rest_lt_cons k sv rest) hsz
        rw [mergeEntries_cons t k sv rest]
        rw [mergeEntries_cons (mergeEntries (mergeStep t k sv) rest) k sv rest]
        have hlkM : lookupEntry k (mergeEntries (mergeStep t k sv) rest) =
            lookupEntry k (mergeStep t k sv) :=
          lookup_mergeEntries_notin rest _ k hknone
        cases hT : lookupEntry k t with
        | some tv =>
          have hw : lookupEntry k (mergeEntries (mergeStep t k sv) rest) =
              some (mergeValue tv sv) := by
            rw [hlkM, lookup_mergeStep_self, hT]
          have hmv : mergeValue (mergeValue tv sv) sv = mergeValue tv sv :=
            ((ih (sizeOf sv) hszsv).1 sv le_rfl hwfsv).1 tv
          rw [mergeStep_id _ k sv (mergeValue tv sv) hw hmv]
          exact (ih (sizeOf rest) hszrest).2.2 rest le_rfl hwfrest (mergeStep t k sv)
        | none =>
          have hw : lookupEntry k (mergeEntries (mergeStep t k sv) rest) = some sv := by
            rw [hlkM, lookup_mergeStep_self, hT]
          have hmv : mergeValue sv sv = sv :=
            ((ih (sizeOf sv) hszsv).1 sv le_rfl hwfsv).2
          rw [mergeStep_id _ k sv sv hw hmv]
          exact (ih (sizeOf rest) hszrest).2.2 rest le_rfl hwfrest (mergeStep t k sv)

/-- Idempotence of `deep_merge` for a well-formed source. -/
theorem deep_merge_idem (t s : Json) (h : wf s = true) :
    deep_merge (deep_merge t s) s = deep_merge t s := by
  cases s with
  | obj b =>
    have hwfb : wfEntries b = true := (wf_obj_iff b).mp h
    have hG := (mergeIdem_main (sizeOf b)).2.2 b le_rfl hwfb
    have hself : mergeEntries b b = b :=
      (mergeIdem_main (sizeOf b)).2.1 b le_rfl hwfb b (fun _ _ hh => hh)
    cases t with
    | obj a => simpa [deep_merge] using congrArg Json.obj (hG a)
    | null => simpa [deep_merge] using congrArg Json.obj hself
    | bool c => simpa [deep_merge] using congrArg Json.obj hself
    | num m => simpa [deep_merge] using congrArg Json.obj hself
    | str s' => simpa [deep_merge] using congrArg Json.obj hself
    | arr xs => simpa [deep_merge] using congrArg Json.obj hself
  | null => cases t <;> rfl
  | bool b => cases t <;> rfl
  | num m => cases t <;> rfl
  | str s' => cases t <;> rfl
  | arr xs => cases t <;> rfl

/-! ## Frame lemmas: a write along one path leaves divergent paths alone -/

theorem getKeys_objEmpty (ks : List String) (h : ks ≠ []) :
    getKeys (.obj []) ks = .null := by
  cases ks with
  | nil => exact absurd rfl h
  | cons a as => simp [getKeys, lookupEntry, getKeys_null]

theorem getKeys_notObj (t : Json) (h : t.isObj = false) (ks : List String)
    (hks : ks ≠ []) : getKeys t ks = .null := by
  cases ks with
  | nil => exact absurd rfl hks
  | cons j js => cases t <;> simp_all [getKeys, Json.isObj]

theorem setKeys_cons_cons (d : List (String × Json)) (k : String) (ks : List String)
    (v : Json) (hne : ks ≠ []) :
    setKeys d (k :: ks) v =
      upsertEntry k
        (.obj (setKeys
          (match lookupEntry k d with
           | some (.obj c) => c
           | _ => [])
          ks v))
        d := by
  cases ks with
  | nil => exact absurd rfl hne
  | cons a as => rfl

theorem setKeys_cons_shape (d : List (String × Json)) (k : String) (ks : List String)
    (v : Json) : ∃ X, setKeys d (k :: ks) v = upsertEntry k X d := by
  cases ks with
  | nil => exact ⟨v, rfl⟩
  | cons a as => exact ⟨_, setKeys_cons_cons d k (a :: as) v (by simp)⟩

/-- A `set_nested` walk along `pre ++ k2 :: r2` does not change what
`get_nested` sees along any path `pre ++ k1 :: r1` with `k1 ≠ k2`. -/
theorem getKeys_setKeys_divergent :
    ∀ (pre : List String) (k1 k2 : String) (r1 r2 : List String)
      (d : List (String × Json)) (v : Json), k1 ≠ k2 →
      getKeys (.obj (setKeys d (pre ++ k2 :: r2) v)) (pre ++ k1 :: r1) =
        getKeys (.obj d) (pre ++ k1 :: r1) := by
  intro pre
  induction pre with
  | nil =>
    intro k1 k2 r1 r2 d v hne
    simp only [List.nil_append]
    obtain ⟨X, hX⟩ := setKeys_cons_shape d k2 r2 v
    rw [hX]
    show getKeys ((lookupEntry k1 (upsertEntry k2 X d)).getD .null) r1 =
      getKeys ((lookupEntry k1 d).getD .null) r1
    rw [lookup_upsert_ne k2 k1 X d hne]
  | cons k0 pre' ih =>
    intro k1 k2 r1 r2 d v hne
    simp only [List.cons_append]
    rw [setKeys_cons_cons d k0 (pre' ++ k2 :: r2) v (by simp)]
    show getKeys ((lookupEntry k0 (upsertEntry k0 _ d)).getD .null) (pre' ++ k1 :: r1) =
      getKeys ((lookupEntry k0 d).getD .null) (pre' ++ k1 :: r1)
    rw [lookup_upsert_self, Option.getD_some]
    rw [ih k1 k2 r1 r2 _ v hne]
    cases hl : lookupEntry k0 d with
    | some w =>
      cases w with
      | obj e => rfl
      | null =>
        simp only [Option.getD_some]
        rw [getKeys_objEmpty _ (by simp), getKeys_null]
      | bool b =>
        simp only [Option.getD_some]
        rw [getKeys_objEmpty _ (by simp), getKeys_notObj (.bool b) rfl _ (by simp)]
      | num n =>
        simp only [Option.getD_some]
        rw [getKeys_objEmpty _ (by simp), getKeys_notObj (.num n) rfl _ (by simp)]
      | str s =>
        simp only [Option.getD_some]
        rw [getKeys_objEmpty _ (by simp), getKeys_notObj (.str s) rfl _ (by simp)]
      | arr xs =>
        simp only [Option.getD_some]
        rw [getKeys_objEmpty _ (by simp), getKeys_notObj (.arr xs) rfl _ (by simp)]
    | none =>
      simp only [Option.getD_none]
      rw [getKeys_objEmpty _ (by simp), getKeys_null]

/-- The ensure-parent loop does not change what `get_nested` sees along
any path that strictly extends the ensured prefix. -/
theorem ensure_getKeys_extend :
    ∀ (ps : List String) (t t' : Json) (j : String) (js : List String),
      ensureParent t ps = .ok t' →
      getKeys t' (ps ++ j :: js) = getKeys t (ps ++ j :: js) := by
  intro ps
  induction ps with
  | nil =>
    intro t t' j js h
    simp only [ensureParent] at h
    cases h
    rfl
  | cons k0 ps' ih =>
    intro t t' j js h
    cases t with
    | obj d =>
      simp only [ensureParent] at h
      cases he : ensureParent ((lookupEntry k0 d).getD (.obj [])) ps' with
      | ok c' =>
        rw [he] at h
        cases h
        simp only [List.cons_append]
        show getKeys ((lookupEntry k0 (upsertEntry k0 c' d)).getD .null) (ps' ++ j :: js) =
          getKeys ((lookupEntry k0 d).getD .null) (ps' ++ j :: js)
        rw [lookup_upsert_self, Option.getD_some]
        rw [ih _ _ j js he]
        cases hl : lookupEntry k0 d with
        | some w => simp only [Option.getD_some]
        | none =>
          simp only [Option.getD_none]
          rw [getKeys_objEmpty _ (by simp), getKeys_null]
      | error e => rw [he] at h; cases h
    | null => simp [ensureParent] at h
    | bool b => simp [ensureParent] at h
    | num n => simp [ensureParent] at h
    | str s => simp [ensureParent] at h
    | arr xs => simp [ensureParent] at h

/-- The ensure-parent loop along `pre ++ k2 :: p2` does not change what
`get_nested` sees along any path `pre ++ k1 :: r1` with `k1 ≠ k2`. -/
theorem ensure_getKeys_divergent :
    ∀ (pre : List String) (k1 k2 : String) (r1 p2 : List String) (t t' : Json),
      k1 ≠ k2 → ensureParent t (pre ++ k2 :: p2) = .ok t' →
      getKeys t' (pre ++ k1 :: r1) = getKeys t (pre ++ k1 :: r1) := by
  intro pre
  induction pre with
  | nil =>
    intro k1 k2 r1 p2 t t' hne h
    cases t with
    | obj d =>
      simp only [List.nil_append, ensureParent] at h ⊢
      cases he : ensureParent ((lookupEntry k2 d).getD (.obj [])) p2 with
      | ok c' =>
        rw [he] at h
        cases h
        show getKeys ((lookupEntry k1 (upsertEntry k2 c' d)).getD .null) r1 =
          getKeys ((lookupEntry k1 d).getD .null) r1
        rw [lookup_upsert_ne k2 k1 c' d hne]
      | error e => rw [he] at h; cases h
    | null => simp [ensureParent] at h
    | bool b => simp [ensureParent] at h
    | num n => simp [ensureParent] at h
    | str s => simp [ensureParent] at h
    | arr xs => simp [ensureParent] at h
  | cons k0 pre' ih =>
    intro k1 k2 r1 p2 t t' hne h
    cases t with
    | obj d =>
      simp only [List.cons_append] at h ⊢
      simp only [ensureParent] at h
      cases he : ensureParent ((lookupEntry k0 d).getD (.obj [])) (pre' ++ k2 :: p2) with
      | ok c' =>
        rw [he] at h
        cases h
        show getKeys ((lookupEntry k0 (upsertEntry k0 c' d)).getD .null) (pre' ++ k1 :: r1) =
          getKeys ((lookupEntry k0 d).getD .null) (pre' ++ k1 :: r1)
        rw [lookup_upsert_self, Option.getD_some]
        rw [ih k1 k2 r1 p2 _ _ hne he]
        cases hl : lookupEntry k0 d with
        | some w => simp only [Option.getD_some]
        | none =>
          simp only [Option.getD_none]
          rw [getKeys_objEmpty _ (by simp), getKeys_null]
      | error e => rw [he] at h; cases h
    | null => simp [ensureParent] at h
    | bool b => simp [ensureParent] at h
    | num n => simp [ensureParent] at h
    | str s => simp [ensureParent] at h
    | arr xs => simp [ensureParent] at h

theorem writeStep_ok_shape (t : Json) (ks : List String) (v : Json) (t' : Json)
    (h : writeStep t ks v = .ok t') :
    ∃ e, ensureParent t ks.dropLast = .ok (.obj e) ∧ t' = .obj (setKeys e ks v) := by
  unfold writeStep at h
  cases he : ensureParent t ks.dropLast with
  | ok tm =>
    rw [he] at h
    cases tm with
    | obj e =>
      refine ⟨e, rfl, ?_⟩
      simp [setTree] at h
      exact h.symm
    | null => simp [setTree] at h
    | bool b => simp [setTree] at h
    | num n => simp [setTree] at h
    | str s => simp [setTree] at h
    | arr xs => simp [setTree] at h
  | error e => rw [he] at h; cases h

/-- Composite frame: a successful write step along `pre ++ k2 :: r2`
preserves `get_nested` along every path `pre ++ k1 :: r1`, `k1 ≠ k2`. -/
theorem writeStep_getKeys_divergent
    (pre : List String) (k1 k2 : String) (r1 r2 : List String)
    (t t' v : Json) (hne : k1 ≠ k2)
    (h : writeStep t (pre ++ k2 :: r2) v = .ok t') :
    getKeys t' (pre ++ k1 :: r1) = getKeys t (pre ++ k1 :: r1) := by
  obtain ⟨e, hens, ht'⟩ := writeStep_ok_shape t _ v t' h
  subst ht'
  rw [getKeys_setKeys_divergent pre k1 k2 r1 r2 e v hne]
  cases r2 with
  | nil =>
    rw [show (pre ++ [k2]).dropLast = pre by simp] at hens
    exact ensure_getKeys_extend pre t (.obj e) k1 r1 hens
  | cons x xs =>
    rw [show (pre ++ k2 :: x :: xs).dropLast = pre ++ k2 :: (x :: xs).dropLast by simp]
      at hens
    exact ensure_getKeys_divergent pre k1 k2 r1 _ t (.obj e) hne hens

/-! ## Reflexivity of Python equality on well-formed values -/

theorem wfArr_cons_iff (x : Json) (xs : List Json) :
    wfArr (x :: xs) = true ↔ wf x = true ∧ wfArr xs = true := by
  simp [wfArr, Bool.and_eq_true]

theorem lookup_some_of_mem_nodup :
    ∀ (d : List (String × Json)) (k : String) (x : Json),
      wfEntries d = true → (k, x) ∈ d → lookupEntry k d = some x := by
  intro d
  induction d with
  | nil => intro k x _ hm; simp at hm
  | cons e rest ih =>
    obtain ⟨k0, v0⟩ := e
    intro k x hwf hm
    obtain ⟨hknone, _, hwfrest⟩ := (wfEntries_cons_iff k0 v0 rest).mp hwf
    rcases List.mem_cons.mp hm with he | hm'
    · injection he with h1 h2
      subst h1
      subst h2
      simp [lookupEntry]
    · by_cases h0 : k0 = k
      · subst h0
        rw [ih k0 x hwfrest hm'] at hknone
        cases hknone
      · simpa [lookupEntry, h0] using ih k x hwfrest hm'

theorem wf_of_lookup :
    ∀ (d : List (String × Json)) (k : String) (v : Json),
      wfEntries d = true → lookupEntry k d = some v → wf v = true := by
  intro d
  induction d with
  | nil => intro k v _ h; simp [lookupEntry] at h
  | cons e rest ih =>
    obtain ⟨k0, v0⟩ := e
    intro k v hwf hl
    obtain ⟨_, hwfv0, hwfrest⟩ := (wfEntries_cons_iff k0 v0 rest).mp hwf
    by_cases h0 : k0 = k
    · simp [lookupEntry, h0] at hl
      exact hl ▸ hwfv0
    · simp [lookupEntry, h0] at hl
      exact ih k v hwfrest hl

theorem sizeOf_lt_of_mem_entries :
    ∀ (d : List (String × Json)) (k : String) (x : Json),
      (k, x) ∈ d → sizeOf x < sizeOf d := by
  intro d
  induction d with
  | nil => intro k x hm; simp at hm
  | cons e rest ih =>
    obtain ⟨k0, v0⟩ := e
    intro k x hm
    rcases List.mem_cons.mp hm with he | hm'
    · injection he with h1 h2
      subst h1
      subst h2
      exact sizeOf_val_lt_cons k x rest
    · exact Nat.lt_trans (ih k x hm') (sizeOf_rest_lt_cons k0 v0 rest)

theorem sizeOf_lt_of_mem_arr :
    ∀ (xs : List Json) (x : Json), x ∈ xs → sizeOf x < sizeOf xs := by
  intro xs
  induction xs with
  | nil => intro x hm; simp at hm
  | cons y ys ih =>
    intro x hm
    rcases List.mem_cons.mp hm with rfl | hm'
    · simp
      omega
    · have : sizeOf ys < sizeOf (y :: ys) := by simp
      exact Nat.lt_trans (ih x hm') this

theorem wf_of_mem_arr :
    ∀ (xs : List Json) (x : Json), wfArr xs = true → x ∈ xs → wf x = true := by
  intro xs
  induction xs with
  | nil => intro x _ hm; simp at hm
  | cons y ys ih =>
    intro x hwf hm
    obtain ⟨hy, hys⟩ := (wfArr_cons_iff y ys).mp hwf
    rcases List.mem_cons.mp hm with rfl | hm'
    · exact hy
    · exact ih x hys hm'

theorem pyEqEntries_of_forall :
    ∀ (a b : List (String × Json)),
      (∀ k x, (k, x) ∈ a → lookupEntry k b = some x ∧ pyEq x x = true) →
      pyEqEntries a b = true := by
  intro a
  induction a with
  | nil => intro b _; simp [pyEqEntries]
  | cons e rest ih =>
    obtain ⟨k, v⟩ := e
    intro b h
    obtain ⟨hl, hp⟩ := h k v (List.mem_cons_self _ _)
    simp only [pyEqEntries, hl, hp, Bool.true_and]
    exact ih b (fun k' x hm => h k' x (List.mem_cons_of_mem _ hm))

theorem pyEqArr_refl_of :
    ∀ (xs : List Json), (∀ x ∈ xs, pyEq x x = true) → pyEqArr xs xs = true := by
  intro xs
  induction xs with
  | nil => simp [pyEqArr]
  | cons y ys ih =>
    intro h
    simp only [pyEqArr, h y (List.mem_cons_self _ _), Bool.true_and]
    exact ih (fun x hm => h x (List.mem_cons_of_mem _ hm))

theorem pyEq_refl_main : ∀ n : Nat, ∀ v : Json, sizeOf v ≤ n → wf v = true →
    pyEq v v = true := by
  intro n
  induction n using Nat.strong_induction_on with
  | _ n ih =>
    intro v hsz hwf
    cases v with
    | null => simp [pyEq]
    | bool b => simp [pyEq]
    | num m => simp [pyEq]
    | str s => simp [pyEq]
    | arr xs =>
      simp only [pyEq]
      refine pyEqArr_refl_of xs (fun x hm => ?_)
      have hszx : sizeOf x < n := by
        have h1 := sizeOf_lt_of_mem_arr xs x hm
        have h2 : sizeOf xs < sizeOf (Json.arr xs) := by simp
        omega
      have hwfx : wf x = true :=
        wf_of_mem_arr xs x (by simpa [wf] using hwf) hm
      exact ih (sizeOf x) hszx x le_rfl hwfx
    | obj d =>
      have hwfd : wfEntries d = true := (wf_obj_iff d).mp hwf
      simp only [pyEq, Bool.and_eq_true, beq_self_eq_true]
      refine ⟨trivial, ?_⟩
      refine pyEqEntries_of_forall d d (fun k x hm => ?_)
      refine ⟨lookup_some_of_mem_nodup d k x hwfd hm, ?_⟩
      have hszx : sizeOf x < n := by
        have h1 := sizeOf_lt_of_mem_entries d k x hm
        have h2 : sizeOf d < sizeOf (Json.obj d) := by simp
        omega
      have hwfx : wf x = true :=
        wf_of_lookup d k x hwfd (lookup_some_of_mem_nodup d k x hwfd hm)
      exact ih (sizeOf x) hszx x le_rfl hwfx

theorem pyEq_refl (v : Json) (h : wf v = true) : pyEq v v = true :=
  pyEq_refl_main (sizeOf v) v le_rfl h

/-! ## Driver-level lemmas -/

theorem getKeys_writeStep (t : Json) (ks : List String) (v t' : Json)
    (hks : ks ≠ []) (h : writeStep t ks v = .ok t') : getKeys t' ks = v := by
  obtain ⟨e, -, ht'⟩ := writeStep_ok_shape t ks v t' h
  subst ht'
  exact getKeys_setKeys ks e v hks

theorem wf_getKeys : ∀ (ks : List String) (t : Json), wf t = true →
    wf (getKeys t ks) = true := by
  intro ks
  induction ks with
  | nil => intro t h; simpa [getKeys] using h
  | cons k ks ih =>
    intro t h
    cases t with
    | obj d =>
      cases hl : lookupEntry k d with
      | some w =>
        simp only [getKeys, hl, Option.getD_some]
        exact ih w (wf_of_lookup d k w ((wf_obj_iff d).mp h) hl)
      | none =>
        simp only [getKeys, hl, Option.getD_none, getKeys_null]
        simp [wf]
    | null => simp [getKeys, getKeys_null, wf]
    | bool b => simp [getKeys, wf]
    | num m => simp [getKeys, wf]
    | str s => simp [getKeys, wf]
    | arr xs => simp [getKeys, wf]

theorem processPair_ok_cases (src u u' : Json) (p : String × String)
    (h : processPair src u p = .ok u') :
    ((get_nested src p.1).isNull = true ∧ u' = u) ∨
    (pyEq (get_nested u p.2) (get_nested src p.1) = true ∧ u' = u) ∨
    writeStep u (splitPath p.2) (get_nested src p.1) = .ok u' := by
  by_cases h1 : (get_nested src p.1).isNull = true
  · simp only [processPair, h1, if_true] at h
    cases h
    exact Or.inl ⟨h1, rfl⟩
  · have h1' : (get_nested src p.1).isNull = false := by
      simpa [Bool.not_eq_true] using h1
    by_cases h2 : pyEq (get_nested u p.2) (get_nested src p.1) = true
    · simp only [processPair, h1', h2, Bool.false_eq_true, if_false, if_true] at h
      cases h
      exact Or.inr (Or.inl ⟨h2, rfl⟩)
    · have h2' : pyEq (get_nested u p.2) (get_nested src p.1) = false := by
        simpa [Bool.not_eq_true] using h2
      simp only [processPair, h1', h2', Bool.false_eq_true, if_false] at h
      exact Or.inr (Or.inr h)

theorem processPair_id (src u : Json) (p : String × String)
    (h : (get_nested src p.1).isNull = true ∨
      pyEq (get_nested u p.2) (get_nested src p.1) = true) :
    processPair src u p = .ok u := by
  rcases h with h | h
  · simp [processPair, h]
  · by_cases h1 : (get_nested src p.1).isNull = true
    · simp [processPair, h1]
    · have h1' : (get_nested src p.1).isNull = false := by
        simpa [Bool.not_eq_true] using h1
      simp [processPair, h1', h]

theorem processPair_preserves_getKeys (src u u' : Json) (p : String × String)
    (pre : List String) (k1 k2 : String) (r1 r2 : List String)
    (hsplit : splitPath p.2 = pre ++ k2 :: r2) (hne : k1 ≠ k2)
    (h : processPair src u p = .ok u') :
    getKeys u' (pre ++ k1 :: r1) = getKeys u (pre ++ k1 :: r1) := by
  rcases processPair_ok_cases src u u' p h with ⟨-, rfl⟩ | ⟨-, rfl⟩ | hw
  · rfl
  · rfl
  · rw [hsplit] at hw
    exact writeStep_getKeys_divergent pre k1 k2 r1 r2 u u' _ hne hw

/-! ## Claim theorems (first group) -/

/-- C1: `merge(target, source)` is fully specified by cases: when both are
mappings, every source key is inserted when absent from the target,
recursively merged when both values are mappings, and replaced wholesale
otherwise (in particular two sequences are never element-wise merged);
when either side is not a mapping, the source is returned unchanged. -/
theorem claim_C1 :
    (∀ t s : Json, t.isObj = false ∨ s.isObj = false → deep_merge t s = s) ∧
    (∀ (t s : List (String × Json)) (k : String) (sv : Json),
      noDupKeys s = true → lookupEntry k s = some sv →
      lookupEntry k (mergeEntries t s) =
        some (match lookupEntry k t with
              | none => sv
              | some tv =>
                match tv, sv with
                | .obj _, .obj _ => deep_merge tv sv
                | .arr _, .arr _ => sv
                | _, _ => sv)) := by
  constructor
  · intro t s h
    cases t <;> cases s <;> try rfl
    rcases h with h | h <;> simp [Json.isObj] at h
  · intro t s k sv hnd hl
    rw [lookup_mergeEntries_of_mem s t k sv hnd hl]
    cases hT : lookupEntry k t with
    | none => simp
    | some tv => simp [mergeValue_eq_spec]

theorem claim_C1_witness :
    deep_merge (.num 1) (.obj []) = .obj [] ∧
    lookupEntry "a" (mergeEntries [("a", .num 1)] [("a", .num 2)]) = some (.num 2) :=
  ⟨claim_C1.1 _ _ (Or.inl rfl),
   claim_C1.2 [("a", .num 1)] [("a", .num 2)] "a" (.num 2) rfl rfl⟩

/-- C2: `get` splits the path on `.` and descends one segment at a time,
returning the absent-marker exactly in the spec's three cases and the
final segment's value otherwise (here: `get_nested` coincides with the
spec-worded descent `getSpecKeys`), with the spec's three examples. -/
theorem claim_C2 :
    (∀ (t : Json) (path : String), get_nested t path = getSpecKeys t (splitPath path)) ∧
    get_nested (.obj [("a", .obj [("b", .num 42)])]) "a.b" = .num 42 ∧
    get_nested (.obj [("a", .num 1)]) "b" = .null ∧
    get_nested (.obj [("a", .null)]) "a.b" = .null :=
  ⟨fun t _ => getKeys_eq_getSpec _ t, rfl, rfl, rfl⟩

/-- C3: `set` splits the path on `.`, walks all segments but the last
creating an empty mapping at a missing or non-mapping segment, and
assigns the value at the final segment (here: `setKeys` coincides with
the spec-worded walk `setSpecWalk`, and reading the path back yields the
assigned value), with the spec's example `set({}, "a.b.c", 4)`. -/
theorem claim_C3 :
    (∀ (d : List (String × Json)) (ks : List String) (v : Json), ks ≠ [] →
      setKeys d ks v = setSpecWalk d ks.dropLast ((ks.getLast?).getD "") v) ∧
    (∀ (d : List (String × Json)) (ks : List String) (v : Json), ks ≠ [] →
      getKeys (.obj (setKeys d ks v)) ks = v) ∧
    set_nested [] "a.b.c" (.num 4) = [("a", .obj [("b", .obj [("c", .num 4)])])] :=
  ⟨fun d ks v h => setKeys_eq_spec ks d v h,
   fun d ks v h => getKeys_setKeys ks d v h, rfl⟩

theorem claim_C3_witness :
    setKeys [] ["a", "b"] (.num 1) =
      setSpecWalk [] (["a", "b"].dropLast) ((["a", "b"].getLast?).getD "") (.num 1) ∧
    getKeys (.obj (setKeys [] ["a", "b"] (.num 1))) ["a", "b"] = .num 1 :=
  ⟨claim_C3.1 [] ["a", "b"] (.num 1) (by simp),
   claim_C3.2.1 [] ["a", "b"] (.num 1) (by simp)⟩

/-- C4 counterexample: the claim says the driver's write step completes
without error for *every* valid target tree, including one holding a
non-mapping value at an intermediate segment of the target path.  It
does not: with the target `{"models": 5}` and the selected target path
`models.providers.ollama`, the ensure-parent loop descends into `5` and
raises a `TypeError` (`"providers" in 5`) — the write step errors. -/
theorem claim_C4_counterexample :
    writeStep (.obj [("models", .num 5)]) (splitPath "models.providers.ollama")
      (.num 7) = .error () := rfl

/-- C4 (amended): on a mapping-rooted target the write step completes
without error exactly when the ensure-parent descent succeeds, i.e. when
no non-final parent segment of the target path holds a non-mapping
value; a non-mapping value at such a segment makes the step raise. -/
theorem claim_C4_amended :
    ∀ (d : List (String × Json)) (ks : List String) (v : Json),
      okB (writeStep (.obj d) ks v) = ensureOk (.obj d) ks.dropLast := by
  intro d ks v
  unfold writeStep
  cases h : ensureParent (.obj d) ks.dropLast with
  | ok c' =>
    have hobj := ensure_obj d _ _ h
    rw [← ensure_isOk, h]
    cases c' with
    | obj e => rfl
    | null => simp [Json.isObj] at hobj
    | bool b => simp [Json.isObj] at hobj
    | num n => simp [Json.isObj] at hobj
    | str s => simp [Json.isObj] at hobj
    | arr xs => simp [Json.isObj] at hobj
  | error e => rw [← ensure_isOk, h]

/-- C7: in preview (dry-run) mode the target file's bytes are never
altered: for every mode and every pair of file states, the run writes
nothing. -/
theorem claim_C7 :
    ∀ (mode : Mode) (srcFile tgtFile : FileState),
      (mainModel mode true srcFile tgtFile).written = none := by
  intro mode sf tf
  rcases sf with _ | (_ | s) <;> rcases tf with _ | (_ | t) <;> rfl

/-- C9: a present-but-null source value is indistinguishable from an
absent path: when JSON `null` is stored at a selected source path (every
key along it present), `get` returns the absent-marker and the driver
skips the pair, leaving the target untouched — a null can never be
propagated. -/
theorem claim_C9 :
    ∀ (source tgt : Json) (p : String × String),
      storedAt source (splitPath p.1) = some .null →
      get_nested source p.1 = .null ∧ processPair source tgt p = .ok tgt := by
  intro source tgt p h
  have hg : get_nested source p.1 = .null := storedAt_null_getKeys _ _ h
  refine ⟨hg, ?_⟩
  simp [processPair, hg, Json.isNull]

theorem claim_C9_witness :
    get_nested (.obj [("a", .null)]) "a" = .null ∧
    processPair (.obj [("a", .null)]) (.num 0) ("a", "a") = .ok (.num 0) :=
  claim_C9 (.obj [("a", .null)]) (.num 0) ("a", "a") rfl

/-- C10: the merge never removes or rewrites target-only data: a key
absent from the source keeps exactly its target binding in the merged
mapping (universally over all member lists, hence at every nesting level
at which the merge recurses). -/
theorem claim_C10 :
    ∀ (t s : List (String × Json)) (k : String), lookupEntry k s = none →
      topLookup (deep_merge (.obj t) (.obj s)) k = lookupEntry k t := by
  intro t s k h
  show lookupEntry k (mergeEntries t s) = lookupEntry k t
  exact lookup_mergeEntries_notin s t k h

theorem claim_C10_witness :
    topLookup (deep_merge (.obj [("a", .num 1)]) (.obj [("b", .num 2)])) "a" =
      lookupEntry "a" [("a", .num 1)] :=
  claim_C10 _ _ _ rfl

/-- C8 counterexample: the claim says the exit status is non-zero
*exactly* for a missing or unparseable file.  But with both files
present and parsed — source `{"models": {"providers": {"ollama": 7}}}`,
target `{"models": 5}` — an apply-mode full run dies of the ensure-parent
`TypeError` and exits non-zero. -/
theorem claim_C8_counterexample :
    (mainModel .full false
      (some (some (.obj [("models", .obj [("providers", .obj [("ollama", .num 7)])])])))
      (some (some (.obj [("models", .num 5)])))).exitCode = 1 := by
  have hpy : pyEq Json.null (Json.num 7) = false := by simp [pyEq]
  simp [mainModel, sectionsToMerge, runPairs, processPair, get_nested, splitPath,
    splitDots, getKeys, lookupEntry, Json.isNull, hpy, writeStep, ensureParent,
    setTree]

/-- C8 (amended): the process exits zero exactly when both files are
present and parse as JSON and, in an apply run, the per-path loop does
not raise (a dry run never raises); missing or unparseable files — and
the `TypeError` reachable in the write step — exit non-zero.  A path
missing in the source is merely skipped (see the skip branch of
`processPair`) and does not affect the exit status. -/
theorem claim_C8_amended :
    ∀ (mode : Mode) (dry : Bool) (sf tf : FileState),
      (mainModel mode dry sf tf).exitCode = 0 ↔
        ∃ s t, sf = some (some s) ∧ tf = some (some t) ∧
          (dry = true ∨ okB (runPairs s t (sectionsToMerge mode)) = true) := by
  intro mode dry sf tf
  rcases sf with _ | (_ | s) <;> rcases tf with _ | (_ | t) <;> try simp [mainModel]
  cases dry with
  | false =>
    cases h : runPairs s t (sectionsToMerge mode) with
    | ok t' => simp [mainModel, h, okB]
    | error e => simp [mainModel, h, okB]
  | true => simp [mainModel]

theorem writeStep_topLookup (t : Json) (k0 : String) (rest : List String) (v t' : Json)
    (h : writeStep t (k0 :: rest) v = .ok t') (k' : String) (hne : k' ≠ k0) :
    topLookup t' k' = topLookup t k' := by
  obtain ⟨e, hens, ht'⟩ := writeStep_ok_shape t _ v t' h
  subst ht'
  obtain ⟨X, hX⟩ := setKeys_cons_shape e k0 rest v
  show lookupEntry k' (setKeys e (k0 :: rest) v) = topLookup t k'
  rw [hX, lookup_upsert_ne k0 k' X e hne]
  cases rest with
  | nil =>
    simp only [List.dropLast_single, ensureParent] at hens
    cases hens
    rfl
  | cons r1 rs =>
    cases t with
    | obj d =>
      rw [show (k0 :: r1 :: rs).dropLast = k0 :: (r1 :: rs).dropLast from rfl] at hens
      simp only [ensureParent] at hens
      cases he2 : ensureParent ((lookupEntry k0 d).getD (.obj [])) ((r1 :: rs).dropLast) with
      | ok c' =>
        rw [he2] at hens
        cases hens
        show lookupEntry k' (upsertEntry k0 c' d) = lookupEntry k' d
        exact lookup_upsert_ne k0 k' c' d hne
      | error e2 => rw [he2] at hens; cases hens
    | null =>
      rw [show (k0 :: r1 :: rs).dropLast = k0 :: (r1 :: rs).dropLast from rfl] at hens
      simp [ensureParent] at hens
    | bool b =>
      rw [show (k0 :: r1 :: rs).dropLast = k0 :: (r1 :: rs).dropLast from rfl] at hens
      simp [ensureParent] at hens
    | num n =>
      rw [show (k0 :: r1 :: rs).dropLast = k0 :: (r1 :: rs).dropLast from rfl] at hens
      simp [ensureParent] at hens
    | str s =>
      rw [show (k0 :: r1 :: rs).dropLast = k0 :: (r1 :: rs).dropLast from rfl] at hens
      simp [ensureParent] at hens
    | arr xs =>
      rw [show (k0 :: r1 :: rs).dropLast = k0 :: (r1 :: rs).dropLast from rfl] at hens
      simp [ensureParent] at hens

/-- C6: mode scoping is a frame property: a models-only run that reaches
the file write leaves the target's whole `agents` subtree identical, and
an agents-only run leaves the whole `models` subtree identical — only
the mode-determined paths are ever written. -/
theorem claim_C6 : ∀ (src tgt t' : Json),
    (runPairs src tgt (sectionsToMerge .modelsOnly) = .ok t' →
      topLookup t' "agents" = topLookup tgt "agents") ∧
    (runPairs src tgt (sectionsToMerge .agentsOnly) = .ok t' →
      topLookup t' "models" = topLookup tgt "models") := by
  intro src tgt t'
  constructor
  · intro h
    rw [show sectionsToMerge .modelsOnly =
      [("models.providers.ollama", "models.providers.ollama")] from rfl] at h
    cases h1 : processPair src tgt ("models.providers.ollama", "models.providers.ollama") with
    | error e => simp only [runPairs, h1] at h; cases h
    | ok u =>
      simp only [runPairs, h1] at h
      cases h
      rcases processPair_ok_cases src tgt t' _ h1 with ⟨-, rfl⟩ | ⟨-, rfl⟩ | hw
      · rfl
      · rfl
      · rw [show splitPath "models.providers.ollama" =
          "models" :: ["providers", "ollama"] from rfl] at hw
        exact writeStep_topLookup tgt "models" _ _ t' hw "agents" (by decide)
  · intro h
    rw [show sectionsToMerge .agentsOnly =
      [("agents.defaults.model", "agents.defaults.model"),
       ("agents.defaults.models", "agents.defaults.models")] from rfl] at h
    cases h1 : processPair src tgt ("agents.defaults.model", "agents.defaults.model") with
    | error e => simp only [runPairs, h1] at h; cases h
    | ok u1 =>
      simp only [runPairs, h1] at h
      cases h2 : processPair src u1 ("agents.defaults.models", "agents.defaults.models") with
      | error e => simp only [runPairs, h2] at h; cases h
      | ok u2 =>
        simp only [runPairs, h2] at h
        cases h
        have f1 : topLookup u1 "models" = topLookup tgt "models" := by
          rcases processPair_ok_cases src tgt u1 _ h1 with ⟨-, rfl⟩ | ⟨-, rfl⟩ | hw
          · rfl
          · rfl
          · rw [show splitPath "agents.defaults.model" =
              "agents" :: ["defaults", "model"] from rfl] at hw
            exact writeStep_topLookup tgt "agents" _ _ u1 hw "models" (by decide)
        have f2 : topLookup t' "models" = topLookup u1 "models" := by
          rcases processPair_ok_cases src u1 t' _ h2 with ⟨-, rfl⟩ | ⟨-, rfl⟩ | hw
          · rfl
          · rfl
          · rw [show splitPath "agents.defaults.models" =
              "agents" :: ["defaults", "models"] from rfl] at hw
            exact writeStep_topLookup u1 "agents" _ _ t' hw "models" (by decide)
        exact f2.trans f1

theorem claim_C6_witness :
    topLookup (.obj [("agents", .num 3),
        ("models", .obj [("providers", .obj [("ollama", .num 1)])])]) "agents" =
      topLookup (.obj [("agents", .num 3)]) "agents" ∧
    topLookup (.obj [("models", .num 5),
        ("agents", .obj [("defaults", .obj [("model", .num 7)])])]) "models" =
      topLookup (.obj [("models", .num 5)]) "models" :=
  ⟨(claim_C6 (.obj [("models", .obj [("providers", .obj [("ollama", .num 1)])])])
      (.obj [("agents", .num 3)])
      (.obj [("agents", .num 3),
        ("models", .obj [("providers", .obj [("ollama", .num 1)])])])).1
    (by simp [sectionsToMerge, runPairs, processPair, get_nested, splitPath, splitDots,
      getKeys, lookupEntry, Json.isNull, pyEq, writeStep, ensureParent, setTree,
      setKeys, upsertEntry, setEntry]),
   (claim_C6 (.obj [("agents", .obj [("defaults", .obj [("model", .num 7)])])])
      (.obj [("models", .num 5)])
      (.obj [("models", .num 5),
        ("agents", .obj [("defaults", .obj [("model", .num 7)])])])).2
    (by simp [sectionsToMerge, runPairs, processPair, get_nested, splitPath, splitDots,
      getKeys, lookupEntry, Json.isNull, pyEq, writeStep, ensureParent, setTree,
      setKeys, upsertEntry, setEntry])⟩

/-- C5: the merge is idempotent — applying it twice with the same
(well-formed, i.e. duplicate-key-free, as every Python dict is) source
equals applying it once — and a repeat driver run over the same source
produces no further change: a second full run on the once-merged target
returns it untouched. -/
theorem claim_C5 :
    (∀ t s : Json, wf s = true → deep_merge (deep_merge t s) s = deep_merge t s) ∧
    (∀ src tgt t' : Json, wf src = true →
      runPairs src tgt (sectionsToMerge .full) = .ok t' →
      runPairs src t' (sectionsToMerge .full) = .ok t') := by
  constructor
  · exact deep_merge_idem
  · intro src tgt t' hwf hrun
    rw [show sectionsToMerge .full =
      [("models.providers.ollama", "models.providers.ollama"),
       ("agents.defaults.model", "agents.defaults.model"),
       ("agents.defaults.models", "agents.defaults.models")] from rfl] at hrun ⊢
    cases h1 : processPair src tgt ("models.providers.ollama", "models.providers.ollama") with
    | error e => simp only [runPairs, h1] at hrun; cases hrun
    | ok t1 =>
      simp only [runPairs, h1] at hrun
      cases h2 : processPair src t1 ("agents.defaults.model", "agents.defaults.model") with
      | error e => simp only [runPairs, h2] at hrun; cases hrun
      | ok t2 =>
        simp only [runPairs, h2] at hrun
        cases h3 : processPair src t2 ("agents.defaults.models", "agents.defaults.models") with
        | error e => simp only [runPairs, h3] at hrun; cases hrun
        | ok t3 =>
          simp only [runPairs, h3] at hrun
          cases hrun
          have hwf1 : wf (get_nested src "models.providers.ollama") = true :=
            wf_getKeys _ src hwf
          have hwf2 : wf (get_nested src "agents.defaults.model") = true :=
            wf_getKeys _ src hwf
          have hwf3 : wf (get_nested src "agents.defaults.models") = true :=
            wf_getKeys _ src hwf
          have hn12 : ("models" : String) ≠ "agents" := by decide
          have hn23 : ("model" : String) ≠ "models" := by decide
          have pres2_1 : getKeys t2 ([] ++ "models" :: ["providers", "ollama"]) =
              getKeys t1 ([] ++ "models" :: ["providers", "ollama"]) :=
            processPair_preserves_getKeys src t1 t2
              ("agents.defaults.model", "agents.defaults.model") [] "models" "agents"
              ["providers", "ollama"] ["defaults", "model"] rfl hn12 h2
          have pres3_1 : getKeys t' ([] ++ "models" :: ["providers", "ollama"]) =
              getKeys t2 ([] ++ "models" :: ["providers", "ollama"]) :=
            processPair_preserves_getKeys src t2 t'
              ("agents.defaults.models", "agents.defaults.models") [] "models" "agents"
              ["providers", "ollama"] ["defaults", "models"] rfl hn12 h3
          have pres3_2 : getKeys t' (["agents", "defaults"] ++ "model" :: []) =
              getKeys t2 (["agents", "defaults"] ++ "model" :: []) :=
            processPair_preserves_getKeys src t2 t'
              ("agents.defaults.models", "agents.defaults.models") ["agents", "defaults"]
              "model" "models" [] [] rfl hn23 h3
          have inv1 : (get_nested src "models.providers.ollama").isNull = true ∨
              pyEq (get_nested t' "models.providers.ollama")
                (get_nested src "models.providers.ollama") = true := by
            rcases processPair_ok_cases src tgt t1 _ h1 with ⟨hs, rfl⟩ | ⟨hp, rfl⟩ | hw
            · exact Or.inl hs
            · refine Or.inr ?_
              have hchain : get_nested t' "models.providers.ollama" =
                  get_nested t1 "models.providers.ollama" := pres3_1.trans pres2_1
              rw [hchain]
              exact hp
            · refine Or.inr ?_
              have hget : get_nested t1 "models.providers.ollama" =
                  get_nested src "models.providers.ollama" :=
                getKeys_writeStep tgt _ _ t1 (by decide) hw
              have hchain : get_nested t' "models.providers.ollama" =
                  get_nested t1 "models.providers.ollama" := pres3_1.trans pres2_1
              rw [hchain, hget]
              exact pyEq_refl _ hwf1
          have inv2 : (get_nested src "agents.defaults.model").isNull = true ∨
              pyEq (get_nested t' "agents.defaults.model")
                (get_nested src "agents.defaults.model") = true := by
            rcases processPair_ok_cases src t1 t2 _ h2 with ⟨hs, rfl⟩ | ⟨hp, rfl⟩ | hw
            · exact Or.inl hs
            · refine Or.inr ?_
              have hchain : get_nested t' "agents.defaults.model" =
                  get_nested t2 "agents.defaults.model" := pres3_2
              rw [hchain]
              exact hp
            · refine Or.inr ?_
              have hget : get_nested t2 "agents.defaults.model" =
                  get_nested src "agents.defaults.model" :=
                getKeys_writeStep t1 _ _ t2 (by decide) hw
              have hchain : get_nested t' "agents.defaults.model" =
                  get_nested t2 "agents.defaults.model" := pres3_2
              rw [hchain, hget]
              exact pyEq_refl _ hwf2
          have inv3 : (get_nested src "agents.defaults.models").isNull = true ∨
              pyEq (get_nested t' "agents.defaults.models")
                (get_nested src "agents.defaults.models") = true := by
            rcases processPair_ok_cases src t2 t' _ h3 with ⟨hs, rfl⟩ | ⟨hp, rfl⟩ | hw
            · exact Or.inl hs
            · exact Or.inr hp
            · refine Or.inr ?_
              have hget : get_nested t' "agents.defaults.models" =
                  get_nested src "agents.defaults.models" :=
                getKeys_writeStep t2 _ _ t' (by decide) hw
              rw [hget]
              exact pyEq_refl _ hwf3
          have s1 : processPair src t'
              ("models.providers.ollama", "models.providers.ollama") = .ok t' :=
            processPair_id src t' _ inv1
          have s2 : processPair src t'
              ("agents.defaults.model", "agents.defaults.model") = .ok t' :=
            processPair_id src t' _ inv2
          have s3 : processPair src t'
              ("agents.defaults.models", "agents.defaults.models") = .ok t' :=
            processPair_id src t' _ inv3
          simp only [runPairs, s1, s2, s3]

theorem claim_C5_witness :
    deep_merge (deep_merge (.num 1) (.obj [("a", .num 2)])) (.obj [("a", .num 2)]) =
      deep_merge (.num 1) (.obj [("a", .num 2)]) ∧
    runPairs (.obj [("models", .obj [("providers", .obj [("ollama", .num 1)])])])
      (.obj [("models", .obj [("providers", .obj [("ollama", .num 1)])])])
      (sectionsToMerge .full) =
      .ok (.obj [("models", .obj [("providers", .obj [("ollama", .num 1)])])]) :=
  ⟨claim_C5.1 (.num 1) (.obj [("a", .num 2)]) (by simp [wf, wfEntries, lookupEntry]),
   claim_C5.2 (.obj [("models", .obj [("providers", .obj [("ollama", .num 1)])])])
     (.obj []) (.obj [("models", .obj [("providers", .obj [("ollama", .num 1)])])])
     (by simp [wf, wfEntries, lookupEntry])
     (by simp [sectionsToMerge, runPairs, processPair, get_nested, splitPath, splitDots,
       getKeys, lookupEntry, Json.isNull, pyEq, writeStep, ensureParent, setTree,
       setKeys, upsertEntry, setEntry])⟩

end MergeConfig
